import Mathlib

/-!
Verification of the document-assembly and legal-entity extraction pipeline
of the translations repository (analyze_docs.py, analyze_docs_claude.py).

The Python functions are shallowly embedded as executable Lean definitions
over `List Char` / `String`.  Anchored regular expressions that only test or
strip a suffix are embedded as direct suffix analyses; the general-purpose
regular expression operations (re.sub / re.search / re.findall) used by the
OCR cleaner, the repetition suppressor and the party extractor are embedded
through a small backtracking matcher whose combinators mirror the pattern
syntax of the source.
-/

namespace StrUtil

/-- Lowercasing of one character as Python str.lower acts on the character
    range appearing in this repository (ASCII letters and the accented
    Spanish capitals). -/
def pyLowerChar (c : Char) : Char :=
  if 'A' ≤ c ∧ c ≤ 'Z' then Char.ofNat (c.toNat + 32)
  else if c = 'Á' then 'á'
  else if c = 'É' then 'é'
  else if c = 'Í' then 'í'
  else if c = 'Ó' then 'ó'
  else if c = 'Ú' then 'ú'
  else if c = 'Ñ' then 'ñ'
  else if c = 'Ü' then 'ü'
  else c

def pyLowerL (s : List Char) : List Char := s.map pyLowerChar

/-- Python str.lower of a whole string (on the repository's character range). -/
def pyLower (s : String) : String := ⟨pyLowerL s.data⟩

/-- Whitespace in the sense of Python's str.split / str.strip and the regex
    class following a backslash-s (space, tab, newline, carriage return,
    form feed, vertical tab). -/
def isWs (c : Char) : Bool :=
  c = ' ' ∨ c = '\t' ∨ c = '\n' ∨ c = '\r' ∨ c = '\x0c' ∨ c = '\x0b'

/-- Word character in the sense of the regex class following a backslash-w
    (Unicode in Python), restricted to the character range appearing in this
    repository: ASCII alphanumerics, underscore and the accented Spanish
    letters. -/
def isWordChar (c : Char) : Bool :=
  c.isAlphanum ∨ c = '_' ∨ "áéíóúñüÁÉÍÓÚÑÜ".data.contains c

def isDigitChar (c : Char) : Bool := '0' ≤ c ∧ c ≤ '9'

/-- Strip a literal prefix case-insensitively; the pattern is given already
    lowercased.  Returns the remainder on success. -/
def stripPrefixCI : List Char → List Char → Option (List Char)
  | [], s => some s
  | _ :: _, [] => none
  | p :: ps, c :: cs => if pyLowerChar c = p then stripPrefixCI ps cs else none

/-- Does the haystack contain the needle as a contiguous substring
    (Python's infix operator in on str)? -/
def containsSub (hay needle : List Char) : Bool :=
  match hay with
  | [] => needle.isEmpty
  | _ :: t => needle.isPrefixOf hay || containsSub t needle

/-- Python str.strip(): remove leading and trailing whitespace. -/
def pyStrip (s : List Char) : List Char :=
  ((s.dropWhile isWs).reverse.dropWhile isWs).reverse

/-- Python str.split() with no argument: split on runs of whitespace,
    discarding empty fields. -/
def pySplit (s : List Char) : List (List Char) :=
  go [] s
where
  go (cur : List Char) : List Char → List (List Char)
    | [] => if cur.isEmpty then [] else [cur.reverse]
    | c :: t =>
      if isWs c then
        if cur.isEmpty then go [] t else cur.reverse :: go [] t
      else go (c :: cur) t

/-- Join a list of words with single spaces (Python " ".join). -/
def joinSpace (ws : List (List Char)) : List Char :=
  match ws with
  | [] => []
  | w :: t => t.foldl (fun acc x => acc ++ ' ' :: x) w
end StrUtil

open StrUtil
namespace AnalyzeDocs

/-- Embeds the re.sub of the anchored pattern dot-digits-pdf-end (flag
    IGNORECASE) with empty replacement: if the name ends with a dot, a
    nonempty digit run and a case-insensitive pdf, strip that suffix. -/
def stripDotNumPdf (name : List Char) : List Char :=
  match stripPrefixCI "fdp".data name.reverse with
  | none => name
  | some r1 =>
    let ds := r1.takeWhile isDigitChar
    let r2 := r1.dropWhile isDigitChar
    if ds ≠ [] ∧ r2.head? = some '.' then (r2.drop 1).reverse else name

/-- Embeds the re.sub of the anchored pattern digits-pdf-end (flag
    IGNORECASE) with empty replacement. -/
def stripNumPdf (name : List Char) : List Char :=
  match stripPrefixCI "fdp".data name.reverse with
  | none => name
  | some r1 =>
    let ds := r1.takeWhile isDigitChar
    let r2 := r1.dropWhile isDigitChar
    if ds ≠ [] then r2.reverse else name

/-- Embeds the re.sub of the anchored pattern whitespace-run then one or two
    digits at the end (no flags) with empty replacement.  The match exists
    exactly when the maximal trailing digit run has length one or two and is
    immediately preceded by whitespace; the greedy leftmost whitespace-run
    start makes the substitution strip the whole whitespace run. -/
def stripSpacedNum (name : List Char) : List Char :=
  let r := name.reverse
  let ds := r.takeWhile isDigitChar
  let r2 := r.dropWhile isDigitChar
  if (ds.length = 1 ∨ ds.length = 2) ∧ (r2.head?.map isWs).getD false then
    (r2.dropWhile isWs).reverse
  else name

/-- Strip a trailing case-insensitive .pdf extension (name.lower().endswith
    followed by name[:-4] in the source). -/
def stripPdfExt (name : List Char) : List Char :=
  if ".pdf".data.isSuffixOf (pyLowerL name) then
    name.take (name.length - 4)
  else name

/-- get_base_document_name of analyze_docs.py: strip the .pdf extension,
    then a dotted .Npdf page suffix, then a bare Npdf page suffix, then
    surrounding whitespace. -/
def get_base_document_name (filename : String) : String :=
  ⟨pyStrip (stripNumPdf (stripDotNumPdf (stripPdfExt filename.data)))⟩
end AnalyzeDocs
namespace AnalyzeDocsClaude

/-- get_base_document_name of analyze_docs_claude.py: like the analyze_docs
    version but additionally stripping a trailing space-separated one-or-two
    digit page number before the final whitespace trim. -/
def get_base_document_name (filename : String) : String :=
  ⟨pyStrip (AnalyzeDocs.stripSpacedNum
    (AnalyzeDocs.stripNumPdf (AnalyzeDocs.stripDotNumPdf
      (AnalyzeDocs.stripPdfExt filename.data))))⟩
end AnalyzeDocsClaude
namespace Rex

/-- Matcher state: the character just before the current position (for word
    boundaries), the remaining input, and the captured groups so far. -/
structure St where
  prev : Option Char
  rest : List Char
  caps : List (Nat × List Char)
deriving Repr

/-- A matcher returns the list of possible successor states in backtracking
    priority order (the head is the outcome the Python engine commits to). -/
abbrev M := St → List St

def pnull : M := fun st => [st]

/-- Match a single character satisfying a class predicate. -/
def pc (p : Char → Bool) : M := fun st =>
  match st.rest with
  | [] => []
  | c :: t => if p c then [⟨some c, t, st.caps⟩] else []

def pseq (a b : M) : M := fun st => (a st).flatMap b

def pseqs (l : List M) : M := l.foldr pseq pnull

/-- Ordered alternation (the left alternative has priority). -/
def palt (a b : M) : M := fun st => a st ++ b st

/-- Greedy option (regex question mark). -/
def popt (a : M) : M := fun st => a st ++ [st]

/-- Literal string. -/
def plit (s : String) : M := pseqs (s.data.map (fun c => pc (fun x => x = c)))

/-- Literal string under the IGNORECASE flag. -/
def plitCI (s : String) : M :=
  pseqs (s.data.map (fun c => pc (fun x => StrUtil.pyLowerChar x = StrUtil.pyLowerChar c)))

/-- Word boundary (regex backslash-b): the two sides of the position differ
    in word-character-ness; the ends of the input count as non-word. -/
def pwb : M := fun st =>
  let l := (st.prev.map StrUtil.isWordChar).getD false
  let r := (st.rest.head?.map StrUtil.isWordChar).getD false
  if l != r then [st] else []

/-- Zero-width lookahead. -/
def plook (a : M) : M := fun st => if (a st).isEmpty then [] else [st]

/-- Capture group: records the text consumed by the inner matcher. -/
def pgrp (i : Nat) (a : M) : M := fun st =>
  (a st).map (fun o =>
    { o with caps := (i, st.rest.take (st.rest.length - o.rest.length)) :: o.caps })

/-- Greedy star, unrolled on fuel; only repetitions that consume input are
    taken, so fuel equal to the remaining length is exact. -/
def pstarF (a : M) : Nat → M
  | 0, st => [st]
  | fuel + 1, st =>
    let outs := (a st).filter (fun o => o.rest.length < st.rest.length)
    outs.flatMap (fun o => pstarF a fuel o) ++ [st]

def pstar (a : M) : M := fun st => pstarF a st.rest.length st

/-- Regex plus (one or more, greedy). -/
def pplus (a : M) : M := pseq a (pstar a)

/-- Up to n further greedy repetitions. -/
def puptoN : Nat → M → M
  | 0, _ => pnull
  | n + 1, a => popt (pseq a (puptoN n a))

/-- Counted repetition with lower bound lo and upper bound hi (greedy). -/
def prange (lo hi : Nat) (a : M) : M :=
  pseq (pseqs (List.replicate lo a)) (puptoN (hi - lo) a)

/-- Counted repetition with only a lower bound (greedy). -/
def patLeast (lo : Nat) (a : M) : M :=
  pseq (pseqs (List.replicate lo a)) (pstar a)

/-- A replacement template: literal characters and group references. -/
abbrev Tmpl := List (Sum Char Nat)

def tmplLit (s : String) : Tmpl := s.data.map Sum.inl

def render (tmpl : Tmpl) (caps : List (Nat × List Char)) : List Char :=
  tmpl.flatMap (fun it =>
    match it with
    | Sum.inl c => [c]
    | Sum.inr i => match caps.lookup i with
                   | some v => v
                   | none => [])

/-- re.sub: scan left to right, replacing every non-overlapping match with
    the rendered template; on an empty match or no match, copy one character
    and continue.  The fuel is structural; fuel above the input length never
    runs out because every step consumes input. -/
def subF (a : M) (tmpl : Tmpl) : Nat → Option Char → List Char → List Char
  | 0, _, s => s
  | fuel + 1, prev, s =>
    match (a ⟨prev, s, []⟩).head? with
    | some o =>
      let consumed := s.length - o.rest.length
      if consumed = 0 then
        match s with
        | [] => []
        | c :: t => c :: subF a tmpl fuel (some c) t
      else
        render tmpl o.caps ++ subF a tmpl fuel ((s.take consumed).getLast?) o.rest
    | none =>
      match s with
      | [] => []
      | c :: t => c :: subF a tmpl fuel (some c) t

def subAll (a : M) (tmpl : Tmpl) (s : List Char) : List Char :=
  subF a tmpl (s.length + 1) none s

/-- re.search returning only the match start position. -/
def searchStartF (a : M) : Option Char → List Char → Nat → Option Nat
  | prev, s, pos =>
    if !(a ⟨prev, s, []⟩).isEmpty then some pos
    else
      match s with
      | [] => none
      | c :: t => searchStartF a (some c) t (pos + 1)

def searchStart (a : M) (s : List Char) : Option Nat := searchStartF a none s 0

/-- re.findall: every non-overlapping match, left to right, as the matched
    text together with its captures. -/
def findAllF (a : M) : Nat → Option Char → List Char →
    List (List Char × List (Nat × List Char))
  | 0, _, _ => []
  | fuel + 1, prev, s =>
    match (a ⟨prev, s, []⟩).head? with
    | some o =>
      let consumed := s.length - o.rest.length
      if consumed = 0 then
        match s with
        | [] => []
        | c :: t => findAllF a fuel (some c) t
      else
        (s.take consumed, o.caps) :: findAllF a fuel ((s.take consumed).getLast?) o.rest
    | none =>
      match s with
      | [] => []
      | c :: t => findAllF a fuel (some c) t

def findAll (a : M) (s : List Char) : List (List Char × List (Nat × List Char)) :=
  findAllF a (s.length + 1) none s
end Rex
namespace AnalyzeDocs

/-- A substitution rule: word boundary, case-insensitive literal, word
    boundary, replaced by a fixed string. -/
def wordRuleCI (w r : String) : Rex.M × Rex.Tmpl :=
  (Rex.pseqs [Rex.pwb, Rex.plitCI w, Rex.pwb], Rex.tmplLit r)

/-- The OCR_CORRECTIONS rule for a standalone 0 followed by whitespace and
    sea, sean or seas (a lookahead), replaced by o. -/
def zeroSeaRule : Rex.M × Rex.Tmpl :=
  (Rex.pseqs [Rex.pwb, Rex.plit "0", Rex.pwb,
     Rex.plook (Rex.pseqs [Rex.pplus (Rex.pc isWs), Rex.plitCI "sea",
       Rex.popt (Rex.pc (fun c => pyLowerChar c = 'n' ∨ pyLowerChar c = 's')),
       Rex.pwb])],
   Rex.tmplLit "o")

/-- OCR_CORRECTIONS of analyze_docs.py, in dict order; every rule is applied
    with the IGNORECASE flag. -/
def OCR_CORRECTIONS : List (Rex.M × Rex.Tmpl) :=
  [wordRuleCI "1os" "los", wordRuleCI "1a" "la", wordRuleCI "1as" "las",
   wordRuleCI "e1" "el", wordRuleCI "de1" "del", wordRuleCI "s1" "si",
   wordRuleCI "H1l" "Mil", wordRuleCI "ne8=" "mes", zeroSeaRule]

/-- The whitespace-V-whitespace rule of clean_ocr_text: the pattern captures
    the two whitespace characters and the replacement template reinserts them
    around y.  This substitution is case-sensitive (no flags in the source). -/
def vRule : Rex.M × Rex.Tmpl :=
  (Rex.pseqs [Rex.pgrp 1 (Rex.pc isWs), Rex.plit "V", Rex.pgrp 2 (Rex.pc isWs)],
   [Sum.inr 1, Sum.inl 'y', Sum.inr 2])

/-- The ocr_fixes rule for a standalone 0 followed by whitespace and a vowel
    (a lookahead), replaced by o; IGNORECASE makes the vowel class match
    capitals as well. -/
def zeroVowelRule : Rex.M × Rex.Tmpl :=
  (Rex.pseqs [Rex.pwb, Rex.plit "0", Rex.pwb,
     Rex.plook (Rex.pseqs [Rex.pplus (Rex.pc isWs),
       Rex.pc (fun c =>
         pyLowerChar c = 'a' ∨ pyLowerChar c = 'e' ∨ pyLowerChar c = 'i' ∨
         pyLowerChar c = 'o' ∨ pyLowerChar c = 'u')])],
   Rex.tmplLit "o")

/-- The ocr_fixes table of spanish_spell_correct, in source order; every rule
    carries the IGNORECASE flag. -/
def ocr_fixes : List (Rex.M × Rex.Tmpl) :=
  [wordRuleCI "1a" "la", wordRuleCI "1as" "las", wordRuleCI "1os" "los",
   wordRuleCI "e1" "el", wordRuleCI "de1" "del", wordRuleCI "s1" "si",
   wordRuleCI "n1" "ni", wordRuleCI "a1" "al", zeroVowelRule,
   wordRuleCI "quc" "que", wordRuleCI "dcl" "del", wordRuleCI "dcb" "deb",
   wordRuleCI "ccn" "con", wordRuleCI "ncn" "non", wordRuleCI "lcs" "los",
   wordRuleCI "csf" "est", wordRuleCI "ostá" "está", wordRuleCI "está" "está",
   wordRuleCI "scr" "ser", wordRuleCI "pcr" "por", wordRuleCI "pGr" "por",
   wordRuleCI "cc" "cc", wordRuleCI "ll" "ll",
   wordRuleCI "debc" "debe", wordRuleCI "dcbe" "debe", wordRuleCI "hacc" "hace",
   wordRuleCI "misno" "mismo", wordRuleCI "nisma" "misma", wordRuleCI "nismo" "mismo",
   wordRuleCI "sobrc" "sobre", wordRuleCI "entrc" "entre", wordRuleCI "ticne" "tiene",
   wordRuleCI "pucde" "puede", wordRuleCI "donde" "donde", wordRuleCI "cuando" "cuando",
   wordRuleCI "todos" "todos", wordRuleCI "cada" "cada", wordRuleCI "esta" "esta",
   wordRuleCI "este" "este", wordRuleCI "esos" "esos", wordRuleCI "esas" "esas",
   wordRuleCI "notario" "notario", wordRuleCI "notaric" "notario",
   wordRuleCI "escritura" "escritura", wordRuleCI "finca" "finca",
   wordRuleCI "propiedad" "propiedad", wordRuleCI "propictario" "propietario",
   wordRuleCI "inmucble" "inmueble", wordRuleCI "inmucbles" "inmuebles",
   wordRuleCI "hipotcca" "hipoteca", wordRuleCI "tcstamento" "testamento",
   wordRuleCI "heredcro" "heredero", wordRuleCI "planilla" "planilla",
   wordRuleCI "planille" "planilla",
   wordRuleCI "Encro" "Enero", wordRuleCI "Fcbrero" "Febrero",
   wordRuleCI "Marzo" "Marzo", wordRuleCI "Abril" "Abril", wordRuleCI "Mayo" "Mayo",
   wordRuleCI "Junio" "Junio", wordRuleCI "Julio" "Julio", wordRuleCI "Agosto" "Agosto",
   wordRuleCI "Scptiembre" "Septiembre", wordRuleCI "Octubre" "Octubre",
   wordRuleCI "Novicmbre" "Noviembre", wordRuleCI "Dicicmbre" "Diciembre"]

/-- spanish_spell_correct of analyze_docs.py: apply every ocr_fixes rule in
    order, each as a global regex substitution. -/
def spanish_spell_correct (text : String) : String :=
  ⟨ocr_fixes.foldl (fun acc pr => Rex.subAll pr.1 pr.2 acc) text.data⟩

/-- clean_ocr_text of analyze_docs.py with the default use_spellcheck=True
    (as invoked by the pipeline): the OCR_CORRECTIONS substitutions in dict
    order, then the whitespace-V-whitespace rule, then spanish_spell_correct. -/
def clean_ocr_text (text : String) : String :=
  let cleaned := OCR_CORRECTIONS.foldl (fun acc pr => Rex.subAll pr.1 pr.2 acc) text.data
  let cleaned := Rex.subAll vRule.1 vRule.2 cleaned
  spanish_spell_correct ⟨cleaned⟩

/-- Embeds re.search of the anchored pattern optional-dot, captured digits,
    pdf.pdf at the end (IGNORECASE): the capture of the leftmost match is the
    maximal digit run immediately preceding the trailing pdf.pdf. -/
def dotNumPdfCapture (filename : List Char) : Option (List Char) :=
  match stripPrefixCI "fdp.fdp".data filename.reverse with
  | none => none
  | some r1 =>
    let ds := r1.takeWhile isDigitChar
    if ds.isEmpty then none else some ds.reverse

/-- Embeds the Boolean re.search of the anchored pattern digits-pdf.pdf at
    the end (IGNORECASE), used by sort_key as its unnumbered-base test. -/
def endsWithNumPdfPdf (filename : List Char) : Bool :=
  match stripPrefixCI "fdp.fdp".data filename.reverse with
  | none => false
  | some r1 => !(r1.takeWhile isDigitChar).isEmpty

/-- Python int() of a decimal digit string. -/
def digitsToNat (ds : List Char) : Nat :=
  ds.foldl (fun acc c => acc * 10 + (c.toNat - '0'.toNat)) 0

/-- sort_key of analyze_docs.py (the filename argument is the path's
    basename): explicit .Npdf.pdf page number if present, else 0 for a name
    without the numbered suffix shape, else 999. -/
def sort_key (filename : String) : Nat :=
  match dotNumPdfCapture filename.data with
  | some ds => digitsToNat ds
  | none => if !endsWithNumPdfPdf filename.data then 0 else 999
end AnalyzeDocs
namespace AnalyzeDocsClaude

/-- Embeds re.search of the anchored pattern whitespace-run, captured one or
    two digits, .pdf at the end (IGNORECASE): it matches exactly when the
    maximal digit run before the trailing .pdf has length one or two and is
    immediately preceded by whitespace. -/
def spacedNumPdfCapture (filename : List Char) : Option (List Char) :=
  match stripPrefixCI "fdp.".data filename.reverse with
  | none => none
  | some r1 =>
    let ds := r1.takeWhile isDigitChar
    if (ds.length = 1 ∨ ds.length = 2) ∧
        ((r1.drop ds.length).head?.map isWs).getD false then
      some ds.reverse
    else none

/-- Embeds the Boolean re.search of the fallback alternation (digits-pdf.pdf
    at the end, or whitespace and one-or-two digits and .pdf at the end),
    used by the claude sort_key as its unnumbered-base test. -/
def endsWithSpacedNumPdf (filename : List Char) : Bool :=
  match stripPrefixCI "fdp.".data filename.reverse with
  | none => false
  | some r1 =>
    let ds := r1.takeWhile isDigitChar
    (ds.length = 1 ∨ ds.length = 2) ∧
      ((r1.drop ds.length).head?.map isWs).getD false

/-- sort_key of analyze_docs_claude.py (the filename argument is the path's
    basename): explicit .Npdf.pdf page number, else the spaced page number of
    a (Name N).pdf series, else 0 for an unnumbered name, else 999. -/
def sort_key (filename : String) : Nat :=
  match AnalyzeDocs.dotNumPdfCapture filename.data with
  | some ds => AnalyzeDocs.digitsToNat ds
  | none =>
    match spacedNumPdfCapture filename.data with
    | some ds => AnalyzeDocs.digitsToNat ds
    | none =>
      if !(AnalyzeDocs.endsWithNumPdfPdf filename.data ||
            endsWithSpacedNumPdf filename.data) then 0
      else 999
end AnalyzeDocsClaude
namespace Grouping

/-- A raw page: its containing directory and its basename.  The group key
    os.path.join(directory, base_name) of the source is modelled as the pair
    (directory, base name). -/
abbrev Page := String × String

/-- Append a page to its group, creating the group at the end on first use
    (defaultdict insertion order). -/
def addToGroups (gs : List ((String × String) × List Page))
    (k : String × String) (p : Page) : List ((String × String) × List Page) :=
  match gs with
  | [] => [(k, [p])]
  | g :: t => if g.1 = k then (g.1, g.2 ++ [p]) :: t else g :: addToGroups t k p

/-- Stable insertion of one element into a list sorted by a numeric key
    (inserted after all elements of smaller or equal key). -/
def insSorted (key : Page → Nat) (x : Page) : List Page → List Page
  | [] => [x]
  | y :: t => if key x < key y then x :: y :: t else y :: insSorted key x t

/-- Stable sort by a numeric key (Python list.sort is stable). -/
def stableSortBy (key : Page → Nat) (l : List Page) : List Page :=
  l.foldl (fun acc x => insSorted key x acc) []

/-- The grouping core of find_and_group_files (both versions), taking the
    list of pages that survived the upstream keyword pre-filter, with the
    base-name normalizer and page sort key as parameters: group by directory
    and normalized base name in first-appearance order, then sort each group
    by the page sort key. -/
def group_files (base : String → String) (key : String → Nat)
    (pages : List Page) : List ((String × String) × List Page) :=
  let grouped := pages.foldl (fun gs p => addToGroups gs (p.1, base p.2) p) []
  grouped.map (fun g => (g.1, stableSortBy (fun p => key p.2) g.2))
end Grouping

/-- find_and_group_files of analyze_docs.py after its keyword pre-filter. -/
def AnalyzeDocs.find_and_group_files (pages : List Grouping.Page) :
    List ((String × String) × List Grouping.Page) :=
  Grouping.group_files AnalyzeDocs.get_base_document_name AnalyzeDocs.sort_key pages

/-- find_and_group_files of analyze_docs_claude.py after its keyword
    pre-filter. -/
def AnalyzeDocsClaude.find_and_group_files (pages : List Grouping.Page) :
    List ((String × String) × List Grouping.Page) :=
  Grouping.group_files AnalyzeDocsClaude.get_base_document_name
    AnalyzeDocsClaude.sort_key pages
namespace AnalyzeDocs

/-- DOCUMENT_TYPES of analyze_docs.py, in dict (declaration) order. -/
def DOCUMENT_TYPES : List (String × List String) :=
  [("Last Will and Testament",
    ["last will", "testament", "testamento", "última voluntad", "herederos"]),
   ("Purchase & Sale Agreement",
    ["purchase", "sale", "compraventa", "compra", "venta", "buy", "sell"]),
   ("Property Deed", ["deed", "escritura", "escritura pública", "título"]),
   ("Power of Attorney",
    ["power of attorney", "poder", "atty", "attorney", "apoderado"]),
   ("Property Partition",
    ["partition", "partición", "partioning", "división", "segregación"]),
   ("Mortgage Document",
    ["mortgage", "hipoteca", "cancelacion de hipoteca", "gravamen"]),
   ("Property Declaration", ["declaration", "declaración", "declaratoria"]),
   ("Land Boundary Survey",
    ["boundaries", "boundary", "boundries", "linderos", "deslinde", "demarcación"]),
   ("Property Transfer", ["transfer", "transferencia", "cesión", "traspaso"]),
   ("Property Holdings Record",
    ["holdings", "bienes", "propiedades", "inmuebles"]),
   ("Heir Documentation",
    ["heir", "heredero", "herencia", "sucesión", "co-heir"]),
   ("Tax/Assessment Document",
    ["tax", "impuesto", "millage", "contribución", "avalúo"]),
   ("Land Registry Document",
    ["registry", "registro", "inscripción", "anotación"]),
   ("Administrative Form",
    ["planilla", "formulario", "solicitud", "check off"])]

/-- Number of trigger keywords of one label found (case-insensitively, as
    substrings) in the combined lowercased filename-plus-text. -/
def kwScore (combined : List Char) (kws : List String) : Nat :=
  kws.countP (fun kw => containsSub combined (pyLowerL kw.data))

/-- The per-label keyword scores, in DOCUMENT_TYPES order. -/
def classifyScores (filename text : String) : List (String × Nat) :=
  let combined := pyLowerL (filename.data ++ ' ' :: text.data)
  DOCUMENT_TYPES.map (fun p => (p.1, kwScore combined p.2))

/-- One step of Python max(scores, key=scores.get): a later entry replaces
    the current best only when strictly greater, so the first maximal entry
    wins. -/
def takeMax (b c : String × Nat) : String × Nat := if b.2 < c.2 then c else b

/-- classify_document of analyze_docs.py: keep the labels with positive
    score, take the first maximal one, fall back when none is positive, and
    derive the confidence from the winning score. -/
def classify_document (filename text : String) : String × String :=
  let scores := (classifyScores filename text).filter (fun p => 0 < p.2)
  match scores with
  | [] => ("Unclassified Legal Document", "Low")
  | s0 :: rest =>
    let best := rest.foldl takeMax s0
    (best.1, if 3 ≤ best.2 then "High" else if 2 ≤ best.2 then "Medium" else "Low")

/-- An apostrophe, written as an escape for use in the report strings. -/
def squote : String := "\x27"

def strJoin (sep : String) : List String → String
  | [] => ""
  | x :: t => t.foldl (fun acc y => acc ++ sep ++ y) x

def high_value_types : List String :=
  ["Last Will and Testament", "Purchase & Sale Agreement",
   "Property Deed", "Property Partition", "Heir Documentation"]

def medium_value_types : List String :=
  ["Power of Attorney", "Land Boundary Survey",
   "Property Transfer", "Mortgage Document"]

def key_families : List String := ["Ceresa", "Rodriguez", "Queral"]

def key_props : List String := ["Villa Aurelia", "Aguaras"]

/-- Does one extracted party match a key family (case-insensitive substring,
    as in the source's any over key_families)? -/
def famMatch (p : String) : Bool :=
  key_families.any (fun f => containsSub (pyLowerL p.data) (pyLowerL f.data))

/-- Does one extracted property match a key property? -/
def propMatch (p : String) : Bool :=
  key_props.any (fun k => containsSub (pyLowerL p.data) (pyLowerL k.data))

/-- The additive score of assess_legal_relevance: 3/2/1 from the document
    type, plus 2 when some party matches a key family, plus 2 when some
    property matches a key property. -/
def relevance_score (doc_type : String) (parties properties : List String) : Nat :=
  (if high_value_types.contains doc_type then 3
   else if medium_value_types.contains doc_type then 2 else 1) +
  (if parties.any famMatch then 2 else 0) +
  (if properties.any propMatch then 2 else 0)

/-- The level thresholds of assess_legal_relevance. -/
def levelOfScore (s : Nat) : String :=
  if 5 ≤ s then "CRITICAL" else if 3 ≤ s then "HIGH"
  else if 2 ≤ s then "MEDIUM" else "LOW"

/-- assess_legal_relevance of analyze_docs.py (the text argument is unused in
    the source as well); returns the level and the ordered reasons list. -/
def assess_legal_relevance (doc_type : String) (parties properties : List String)
    (text : String) : String × List String :=
  let dtReason :=
    if high_value_types.contains doc_type then
      "Document type " ++ squote ++ doc_type ++ squote ++
        " is directly relevant to ownership claims"
    else if medium_value_types.contains doc_type then
      "Document type " ++ squote ++ doc_type ++ squote ++
        " may support ownership chain"
    else
      "Document type " ++ squote ++ doc_type ++ squote ++
        " provides contextual information"
  let found_families := parties.filter famMatch
  let found_props := properties.filter propMatch
  let reasons :=
    [dtReason] ++
    (if !found_families.isEmpty then
      ["References key family members: " ++ strJoin ", " (found_families.take 3)]
     else []) ++
    (if !found_props.isEmpty then
      ["References target properties: " ++ strJoin ", " found_props]
     else [])
  (levelOfScore (relevance_score doc_type parties properties), reasons)

/-- Rank of a relevance level in the order LOW, MEDIUM, HIGH, CRITICAL. -/
def levelRank (l : String) : Nat :=
  if l = "CRITICAL" then 3 else if l = "HIGH" then 2
  else if l = "MEDIUM" then 1 else 0

/-- KNOWN_FAMILIES of analyze_docs.py. -/
def KNOWN_FAMILIES : List String :=
  ["Rodriguez", "Rodriquez", "Queral", "Ceresa", "Cartaya", "Garcia", "Elizalde",
   "Tellez", "Giron", "Sanz", "Berga", "Peña", "Cruz", "Diaz", "Meneses"]

/-- The class written as A-to-Z in the source patterns, under IGNORECASE:
    any ASCII letter. -/
def clsUpper (c : Char) : Bool :=
  ('A' ≤ c ∧ c ≤ 'Z') ∨ ('a' ≤ c ∧ c ≤ 'z')

/-- The class written as a-to-z plus accented vowels and enye in the source
    patterns, under IGNORECASE: ASCII letters and the Spanish accented
    letters in both cases. -/
def clsLowerSp (c : Char) : Bool :=
  ('A' ≤ c ∧ c ≤ 'Z') ∨ ('a' ≤ c ∧ c ≤ 'z') ∨ "áéíóúñÁÉÍÓÚÑ".data.contains c

/-- One capitalized name word of the party patterns: a letter followed by
    one or more further letters. -/
def nameWord : Rex.M := Rex.pseq (Rex.pc clsUpper) (Rex.pplus (Rex.pc clsLowerSp))

/-- The three per-family party patterns of extract_parties, in source order:
    captured name word before the family, captured name word after the
    family, captured name word then a second name word then the family. -/
def partyPatterns (fam : String) : List Rex.M :=
  [Rex.pseqs [Rex.pwb, Rex.pgrp 1 nameWord, Rex.pplus (Rex.pc isWs),
     Rex.plitCI fam, Rex.pwb],
   Rex.pseqs [Rex.pwb, Rex.plitCI fam, Rex.pplus (Rex.pc isWs),
     Rex.pgrp 1 nameWord, Rex.pwb],
   Rex.pseqs [Rex.pwb, Rex.pgrp 1 nameWord, Rex.pplus (Rex.pc isWs), nameWord,
     Rex.pplus (Rex.pc isWs), Rex.plitCI fam, Rex.pwb]]

/-- The full-name reconstruction pattern of extract_parties: name words, then
    optional whitespace, the family name, then further name words. -/
def fullPattern (fam : String) : Rex.M :=
  Rex.pseqs [Rex.pwb, nameWord,
    Rex.pstar (Rex.pseq (Rex.pplus (Rex.pc isWs)) nameWord),
    Rex.pstar (Rex.pc isWs), Rex.plitCI fam,
    Rex.pstar (Rex.pseq (Rex.pplus (Rex.pc isWs)) nameWord), Rex.pwb]

/-- A run of one to three further space-separated name words, captured
    together with a leading name word by the title patterns. -/
def titleNameGroup : Rex.M :=
  Rex.pgrp 1 (Rex.pseq nameWord
    (Rex.prange 1 3 (Rex.pseq (Rex.pplus (Rex.pc isWs)) nameWord)))

/-- The two honorific title patterns of extract_parties. -/
def titlePatterns : List Rex.M :=
  [Rex.pseqs [Rex.pwb,
     Rex.palt (Rex.plitCI "Don") (Rex.palt (Rex.plitCI "Doña")
       (Rex.palt (Rex.plitCI "Sr.") (Rex.palt (Rex.plitCI "Sra.")
         (Rex.palt (Rex.plitCI "Señor") (Rex.plitCI "Señora"))))),
     Rex.pplus (Rex.pc isWs), titleNameGroup],
   Rex.pseqs [Rex.pwb,
     Rex.palt (Rex.plitCI "el señor") (Rex.plitCI "la señora"),
     Rex.pplus (Rex.pc isWs), titleNameGroup]]

/-- Insertion into the model of the Python set of parties (deduplicating;
    the claim proved about the result does not depend on set order). -/
def setAdd (l : List (List Char)) (x : List Char) : List (List Char) :=
  if l.contains x then l else l ++ [x]

/-- extract_parties of analyze_docs.py: per family, per pattern, every
    captured name of length above 2 triggers full-name reconstruction whose
    matches of length above 5 enter the set; then honorific-introduced names
    of length above 5; finally the first ten set entries. -/
def extract_parties (text : String) : List String :=
  let t := text.data
  let afterFams := KNOWN_FAMILIES.foldl (fun parties fam =>
    (partyPatterns fam).foldl (fun parties pat =>
      (Rex.findAll pat t).foldl (fun parties m =>
        let g := (m.2.lookup 1).getD []
        if 2 < g.length then
          (Rex.findAll (fullPattern fam) t).foldl (fun parties fm =>
            if 5 < fm.1.length then setAdd parties (pyStrip fm.1) else parties)
            parties
        else parties) parties) parties) []
  let afterTitles := titlePatterns.foldl (fun parties pat =>
    (Rex.findAll pat t).foldl (fun parties m =>
      let g := (m.2.lookup 1).getD []
      if 5 < g.length then setAdd parties (pyStrip g) else parties) parties)
    afterFams
  (afterTitles.take 10).map (fun l => (⟨l⟩ : String))

/-- The truncation notice appended by clean_translation. -/
def markerText : List Char :=
  "\n\n*[Translation truncated - repetitive output detected]*".data

/-- The word windows of one phrase length, each joined with single spaces
    (the phrases list of clean_translation, positions being list indices). -/
def windows (ws : List (List Char)) (pl : Nat) : List (List Char) :=
  (List.range (ws.length - pl + 1)).map (fun i => joinSpace ((ws.drop i).take pl))

/-- One insertion step of Counter construction: increment the entry of an
    already-seen key, append a fresh key with count one at the end. -/
def incr : List (List Char × Nat) → List Char → List (List Char × Nat)
  | [], x => [(x, 1)]
  | (k, n) :: t, x => if k = x then (k, n + 1) :: t else (k, n) :: incr t x

/-- Counter over a list of phrases; entries are in first-occurrence order,
    as Python dict insertion order. -/
def countsInOrder (l : List (List Char)) : List (List Char × Nat) :=
  l.foldl incr []

/-- Python str.rfind of a substring: the highest start index of an
    occurrence, if any. -/
def rfindSub (s sub : List Char) : Option Nat :=
  ((List.range (s.length + 1)).filter (fun i => sub.isPrefixOf (s.drop i))).getLast?

/-- Python str.rstrip(): drop trailing whitespace. -/
def rstrip (s : List Char) : List Char := (s.reverse.dropWhile isWs).reverse

/-- Method 1 of clean_translation at one phrase length: the first Counter
    entry (in first-occurrence order) with count at least 4 whose first
    occurrence index is nonzero (Python truthiness) and past the first
    quarter of the word count; returns that first occurrence and the
    phrase length. -/
def method1At (ws : List (List Char)) (pl : Nat) : Option (Nat × Nat) :=
  let ph := windows ws pl
  ((countsInOrder ph).find? (fun pc2 =>
      decide (4 ≤ pc2.2) &&
      (ph.indexOf pc2.1 != 0) &&
      decide (ws.length / 4 < ph.indexOf pc2.1))).map
    (fun pc2 => (ph.indexOf pc2.1, pl))

/-- Method 1 over the phrase lengths 6, 5, 4, 3 in order. -/
def method1 (ws : List (List Char)) : Option (Nat × Nat) :=
  [6, 5, 4, 3].foldl (fun acc pl => acc.orElse (fun _ => method1At ws pl)) none

/-- The sentence-break trim of method 1 applied to the joined kept words:
    cut back to the last sentence break only when it lies past the midpoint,
    then append the truncation notice. -/
def buildTruncAux (result : List Char) : List Char :=
  match rfindSub result ". ".data with
  | some i =>
    if result.length / 2 < i then result.take (i + 1) ++ markerText
    else result ++ markerText
  | none => result ++ markerText

/-- The truncation built by method 1: keep the words through the end of the
    first occurrence and apply the sentence-break trim. -/
def buildTrunc1 (ws : List (List Char)) (fp pl : Nat) : List Char :=
  buildTruncAux (joinSpace (ws.take (fp + pl)))

/-- Repeated of-the-X-of-the-Y group of the first degenerate pattern. -/
def ofTheRep : Rex.M :=
  Rex.pseqs [Rex.plit "of the ", Rex.pplus (Rex.pc isWordChar),
    Rex.plit " of the ", Rex.pplus (Rex.pc isWordChar), Rex.pstar (Rex.pc isWs)]

/-- Repeated the-totals-of group of the second degenerate pattern. -/
def totalsRep : Rex.M :=
  Rex.pseqs [Rex.plit "the total", Rex.popt (Rex.pc (fun c => c = 's')),
    Rex.plit " of", Rex.pstar (Rex.pc isWs)]

/-- Repeated X-of-the-Y group of the third degenerate pattern. -/
def xOfTheRep : Rex.M :=
  Rex.pseqs [Rex.pplus (Rex.pc isWordChar), Rex.plit " of the ",
    Rex.pplus (Rex.pc isWordChar), Rex.pstar (Rex.pc isWs)]

/-- The three repetitive_patterns of clean_translation, in source order. -/
def repetitive_patterns : List Rex.M :=
  [Rex.patLeast 3 ofTheRep, Rex.patLeast 3 totalsRep, Rex.patLeast 5 xOfTheRep]

/-- The truncation built by method 2 at a match start past the first
    quarter: cut the text at the match start, cut back further to the last
    sentence break when past the midpoint (else right-strip), and append the
    truncation notice. -/
def truncAt (truncated : List Char) : List Char :=
  match rfindSub truncated ". ".data with
  | some i =>
    if truncated.length / 2 < i then truncated.take (i + 1) ++ markerText
    else rstrip truncated ++ markerText
  | none => rstrip truncated ++ markerText

/-- Method 2 of clean_translation for one pattern: when it matches past the
    first quarter of the text, truncate there. -/
def method2At (pt : List Char) (pat : Rex.M) : Option (List Char) :=
  match Rex.searchStart pat pt with
  | none => none
  | some sp =>
    if pt.length / 4 < sp then some (truncAt (pt.take sp)) else none

/-- Method 2 over the three degenerate patterns in order. -/
def method2 (pt : List Char) : Option (List Char) :=
  repetitive_patterns.foldl (fun acc pat => acc.orElse (fun _ => method2At pt pat))
    none

/-- clean_translation of analyze_docs.py: texts of fewer than 20 words pass
    through; otherwise method 1 (exact repeated phrases) fires first, then
    method 2 (degenerate of-the patterns) on the space-rejoined words, else
    the text is returned unchanged. -/
def clean_translation (text : String) : String :=
  let ws := pySplit text.data
  if ws.length < 20 then text
  else
    match method1 ws with
    | some fppl => ⟨buildTrunc1 ws fppl.1 fppl.2⟩
    | none =>
      let pt := joinSpace ws
      match method2 pt with
      | some out => ⟨out⟩
      | none => text

/-- A 100-word synthetic translation in which the six-word phrase of the
    land of the title occurs five times, first at word index 40 (past the
    first quarter of 25); all other words are unique fillers. -/
def caseA : String := "f01 f02 f03 f04 f05 f06 f07 f08 f09 f10 f11 f12 f13 f14 f15 f16 f17 f18 f19 f20 f21 f22 f23 f24 f25 f26 f27 f28 f29 f30 f31 f32 f33 f34 f35 f36 f37 f38 f39 f40 of the land of the title g1 of the land of the title g2 of the land of the title g3 of the land of the title g4 of the land of the title t01 t02 t03 t04 t05 t06 t07 t08 t09 t10 t11 t12 t13 t14 t15 t16 t17 t18 t19 t20 t21 t22 t23 t24 t25 t26"

/-- The truncation of caseA after the first occurrence of the repeated
    phrase (no sentence break exists, so only the notice is appended). -/
def caseAOut : String := "f01 f02 f03 f04 f05 f06 f07 f08 f09 f10 f11 f12 f13 f14 f15 f16 f17 f18 f19 f20 f21 f22 f23 f24 f25 f26 f27 f28 f29 f30 f31 f32 f33 f34 f35 f36 f37 f38 f39 f40 of the land of the title\n\n*[Translation truncated - repetitive output detected]*"

/-- The kept words of caseAOut before the truncation notice. -/
def caseAPre : String := "f01 f02 f03 f04 f05 f06 f07 f08 f09 f10 f11 f12 f13 f14 f15 f16 f17 f18 f19 f20 f21 f22 f23 f24 f25 f26 f27 f28 f29 f30 f31 f32 f33 f34 f35 f36 f37 f38 f39 f40 of the land of the title"

/-- The same 100-word synthetic translation with the repetition starting at
    word index 1, inside the first quarter. -/
def caseB : String := "f00 of the land of the title g1 of the land of the title g2 of the land of the title g3 of the land of the title g4 of the land of the title t01 t02 t03 t04 t05 t06 t07 t08 t09 t10 t11 t12 t13 t14 t15 t16 t17 t18 t19 t20 t21 t22 t23 t24 t25 t26 t27 t28 t29 t30 t31 t32 t33 t34 t35 t36 t37 t38 t39 t40 t41 t42 t43 t44 t45 t46 t47 t48 t49 t50 t51 t52 t53 t54 t55 t56 t57 t58 t59 t60 t61 t62 t63 t64 t65"

/-- Python text.rfind of a period with explicit bounds, as used by
    translate_in_chunks: the highest index in the half-open range carrying a
    period, if any.  The lower bound is already clamped to zero by natural
    subtraction, matching the slice semantics at the call site. -/
def rfindDotIn (t : List Char) (lo hi : Nat) : Option Nat :=
  ((List.range' lo (hi - lo)).filter (fun i => t.get? i == some '.')).getLast?

/-- The snapped right edge of the chunk starting at start: the raw edge is
    the text length capped window, and when it falls before the text end the
    edge snaps to just past the last period found in the final 200
    characters of the window, provided that period lies after start. -/
def chunkEnd (t : List Char) (cs : Nat) (start : Nat) : Nat :=
  if min (start + cs) t.length < t.length then
    match rfindDotIn t (min (start + cs) t.length - 200) (min (start + cs) t.length) with
    | some p => if start < p then p + 1 else min (start + cs) t.length
    | none => min (start + cs) t.length
  else min (start + cs) t.length

/-- The cursor update of translate_in_chunks: the first chunk advances to
    the snapped edge; later chunks advance to the snapped edge minus the
    overlap while the edge is before the text end. -/
def chunkNext (t : List Char) (cs ov : Nat) (start : Nat) : Nat :=
  if start = 0 then chunkEnd t cs start
  else if chunkEnd t cs start < t.length then chunkEnd t cs start - ov
  else chunkEnd t cs start

/-- The chunking loop of translate_in_chunks, producing the (start, end)
    window bounds; the fuel makes the while loop structural, and exhausted
    fuel (a loop that fails to advance) is none. -/
def chunkLoop (t : List Char) (cs ov : Nat) : Nat → Nat → Option (List (Nat × Nat))
  | 0, _ => none
  | fuel + 1, start =>
    if start < t.length then
      match chunkLoop t cs ov fuel (chunkNext t cs ov start) with
      | none => none
      | some rest => some ((start, chunkEnd t cs start) :: rest)
    else some []

def chunkBounds (t : List Char) (cs ov fuel : Nat) : Option (List (Nat × Nat)) :=
  chunkLoop t cs ov fuel 0

/-- translate_in_chunks of analyze_docs.py over an abstract translation
    backend f (a failing backend call is replaced in the source by an error
    string, so the backend is modelled as a total function); texts no longer
    than the chunk size are translated in one call, longer texts by the
    chunking loop, joined with single spaces. -/
def translate_in_chunks (f : String → String) (text : String)
    (cs ov fuel : Nat) : Option String :=
  if text.data.length ≤ cs then some (f text)
  else
    match chunkBounds text.data cs ov fuel with
    | none => none
    | some bs =>
      some (strJoin " " (bs.map (fun b => f ⟨(text.data.drop b.1).take (b.2 - b.1)⟩)))
end AnalyzeDocs


set_option maxRecDepth 100000 in
set_option maxHeartbeats 1000000 in
/-- C2: the claim that OCR cleaning is idempotent fails on the code: the
    whitespace-V-whitespace rule consumes the surrounding whitespace, so in
    a run of alternating whitespace and capital V only every other V is
    rewritten per pass.  Evaluating the embedded clean_ocr_text at the
    failing input yields clean(" V V ") = " y V " while
    clean(clean(" V V ")) = " y y ". -/
theorem clean_ocr_text_not_idempotent :
    AnalyzeDocs.clean_ocr_text " V V " = " y V " ∧
    AnalyzeDocs.clean_ocr_text (AnalyzeDocs.clean_ocr_text " V V ") = " y y " ∧
    AnalyzeDocs.clean_ocr_text (AnalyzeDocs.clean_ocr_text " V V ") ≠
      AnalyzeDocs.clean_ocr_text " V V " := by
  refine ⟨by decide, by decide, by decide⟩

/-- C1 counterexample: in analyze_docs.py the normalizer get_base_document_name
    does not reduce the spaced naming convention, so "Parada 2.pdf" keeps the
    page number in its base name instead of normalizing to "Parada". -/
theorem base_name_spaced_counterexample :
    AnalyzeDocs.get_base_document_name "Parada 2.pdf" ≠ "Parada" := by decide

/-- C1 (amended): the analyze_docs_claude.py normalizer maps both naming
    conventions, "Parada.2pdf.pdf" and "Parada 2.pdf", to the base name
    "Parada" without cross-contamination; the analyze_docs.py normalizer
    handles only the dotted convention and returns "Parada 2" for the spaced
    one. -/
theorem base_name_two_conventions :
    AnalyzeDocsClaude.get_base_document_name "Parada.2pdf.pdf" = "Parada" ∧
    AnalyzeDocsClaude.get_base_document_name "Parada 2.pdf" = "Parada" ∧
    AnalyzeDocs.get_base_document_name "Parada.2pdf.pdf" = "Parada" ∧
    AnalyzeDocs.get_base_document_name "Parada 2.pdf" = "Parada 2" := by
  refine ⟨by decide, by decide, by decide, by decide⟩

lemma endsWithNumPdfPdf_eq_isSome (f : List Char) :
    AnalyzeDocs.endsWithNumPdfPdf f = (AnalyzeDocs.dotNumPdfCapture f).isSome := by
  unfold AnalyzeDocs.endsWithNumPdfPdf AnalyzeDocs.dotNumPdfCapture
  cases stripPrefixCI "fdp.fdp".data f.reverse with
  | none => rfl
  | some r1 =>
    by_cases h : (r1.takeWhile isDigitChar).isEmpty <;> simp [h]

lemma endsWithSpacedNumPdf_eq_isSome (f : List Char) :
    AnalyzeDocsClaude.endsWithSpacedNumPdf f =
      (AnalyzeDocsClaude.spacedNumPdfCapture f).isSome := by
  unfold AnalyzeDocsClaude.endsWithSpacedNumPdf AnalyzeDocsClaude.spacedNumPdfCapture
  cases stripPrefixCI "fdp.".data f.reverse with
  | none => rfl
  | some r1 =>
    by_cases hl : ((r1.takeWhile isDigitChar).length = 1 ∨
        (r1.takeWhile isDigitChar).length = 2)
    · cases hb : (Option.map isWs r1[(r1.takeWhile isDigitChar).length]?).getD false
      · simp [hl, hb]
      · simp [hl, hb]
    · simp [hl]

/-- C3: for the filenames Doc.pdf, Doc.2pdf.pdf, Doc.3pdf.pdf in one
    directory, both versions of find_and_group_files produce exactly one
    group of three pages in base-first numeric order; and in general the
    claude sort_key ranks a page by its explicit .Npdf page number when
    present, else by its spaced-series number when present, else by 0; the
    999 fallback would apply only to a name matching a number pattern whose
    number cannot be extracted, and whenever both extractions fail the
    number patterns do not match, so the rank is 0. -/
theorem grouping_yields_ordered_pages :
    (AnalyzeDocs.find_and_group_files
        [("d", "Doc.pdf"), ("d", "Doc.2pdf.pdf"), ("d", "Doc.3pdf.pdf")] =
      [(("d", "Doc"),
        [("d", "Doc.pdf"), ("d", "Doc.2pdf.pdf"), ("d", "Doc.3pdf.pdf")])]) ∧
    (AnalyzeDocsClaude.find_and_group_files
        [("d", "Doc.pdf"), ("d", "Doc.2pdf.pdf"), ("d", "Doc.3pdf.pdf")] =
      [(("d", "Doc"),
        [("d", "Doc.pdf"), ("d", "Doc.2pdf.pdf"), ("d", "Doc.3pdf.pdf")])]) ∧
    (∀ f ds, AnalyzeDocs.dotNumPdfCapture f = some ds →
      AnalyzeDocsClaude.sort_key ⟨f⟩ = AnalyzeDocs.digitsToNat ds) ∧
    (∀ f ds, AnalyzeDocs.dotNumPdfCapture f = none →
      AnalyzeDocsClaude.spacedNumPdfCapture f = some ds →
      AnalyzeDocsClaude.sort_key ⟨f⟩ = AnalyzeDocs.digitsToNat ds) ∧
    (∀ f, AnalyzeDocs.dotNumPdfCapture f = none →
      AnalyzeDocsClaude.spacedNumPdfCapture f = none →
      AnalyzeDocsClaude.sort_key ⟨f⟩ = 0) := by
  refine ⟨by decide, by decide, ?_, ?_, ?_⟩
  · intro f ds h
    simp [AnalyzeDocsClaude.sort_key, h]
  · intro f ds h1 h2
    simp [AnalyzeDocsClaude.sort_key, h1, h2]
  · intro f h1 h2
    simp [AnalyzeDocsClaude.sort_key, h1, h2,
      endsWithNumPdfPdf_eq_isSome, endsWithSpacedNumPdf_eq_isSome]

/-- C3 witness: instantiating the general rank statement at concrete pages
    of each kind. -/
theorem grouping_yields_ordered_pages_witness :
    AnalyzeDocsClaude.sort_key "Doc.2pdf.pdf" = 2 ∧
    AnalyzeDocsClaude.sort_key "Parada 2.pdf" = 2 ∧
    AnalyzeDocsClaude.sort_key "Doc.pdf" = 0 := by
  refine ⟨?_, ?_, ?_⟩
  · exact grouping_yields_ordered_pages.2.2.1 "Doc.2pdf.pdf".data "2".data (by decide)
  · exact grouping_yields_ordered_pages.2.2.2.1 "Parada 2.pdf".data "2".data
      (by decide) (by decide)
  · exact grouping_yields_ordered_pages.2.2.2.2 "Doc.pdf".data (by decide) (by decide)
namespace AnalyzeDocs

lemma takeMax_split (s0 : String × Nat) (rest : List (String × Nat)) :
    ∃ A B, s0 :: rest = A ++ (rest.foldl takeMax s0) :: B ∧
      (∀ p ∈ A, p.2 < (rest.foldl takeMax s0).2) ∧
      (∀ q ∈ s0 :: rest, q.2 ≤ (rest.foldl takeMax s0).2) := by
  induction rest generalizing s0 with
  | nil =>
    exact ⟨[], [], rfl, by simp, by simp⟩
  | cons c t ih =>
    by_cases h : s0.2 < c.2
    · have hstep : (c :: t).foldl takeMax s0 = t.foldl takeMax c := by
        simp [List.foldl_cons, takeMax, h]
      obtain ⟨A, B, hsp, hlt, hle⟩ := ih c
      refine ⟨s0 :: A, B, ?_, ?_, ?_⟩
      · rw [hstep]; simpa using hsp
      · intro p hp
        rw [hstep]
        rcases List.mem_cons.mp hp with rfl | hp
        · exact lt_of_lt_of_le h (hle c (by simp))
        · exact hlt p hp
      · intro q hq
        rw [hstep]
        rcases List.mem_cons.mp hq with rfl | hq
        · exact le_of_lt (lt_of_lt_of_le h (hle c (by simp)))
        · exact hle q hq
    · have hstep : (c :: t).foldl takeMax s0 = t.foldl takeMax s0 := by
        simp [List.foldl_cons, takeMax, h]
      obtain ⟨A, B, hsp, hlt, hle⟩ := ih s0
      cases A with
      | nil =>
        have hm : s0 = t.foldl takeMax s0 ∧ t = B :=
          List.cons_eq_cons.mp (by simpa using hsp)
        refine ⟨[], c :: t, ?_, by simp, ?_⟩
        · rw [hstep, ← hm.1]; simp
        · intro q hq
          rw [hstep]
          rcases List.mem_cons.mp hq with rfl | hq
          · exact le_of_eq (congrArg Prod.snd hm.1)
          · rcases List.mem_cons.mp hq with rfl | hq
            · exact le_trans (Nat.le_of_not_lt h) (le_of_eq (congrArg Prod.snd hm.1))
            · exact hle q (by simp [hq])
      | cons a A2 =>
        have ha : a = s0 ∧ t = A2 ++ (t.foldl takeMax s0) :: B := by
          have h2 := List.cons_eq_cons.mp (by simpa using hsp :
            s0 :: t = a :: (A2 ++ (t.foldl takeMax s0) :: B))
          exact ⟨h2.1.symm, h2.2⟩
        have hs0lt : s0.2 < (t.foldl takeMax s0).2 := by
          have := hlt a (by simp)
          rwa [ha.1] at this
        refine ⟨s0 :: c :: A2, B, ?_, ?_, ?_⟩
        · rw [hstep]
          simp only [List.cons_append]
          rw [← ha.2]
        · intro p hp
          rw [hstep]
          rcases List.mem_cons.mp hp with rfl | hp
          · exact hs0lt
          · rcases List.mem_cons.mp hp with rfl | hp
            · exact lt_of_le_of_lt (Nat.le_of_not_lt h) hs0lt
            · exact hlt p (by simp [hp])
        · intro q hq
          rw [hstep]
          rcases List.mem_cons.mp hq with rfl | hq
          · exact le_of_lt hs0lt
          · rcases List.mem_cons.mp hq with rfl | hq
            · exact le_of_lt (lt_of_le_of_lt (Nat.le_of_not_lt h) hs0lt)
            · exact hle q (by simp [hq])

lemma filter_split {α : Type} {p : α → Bool} :
    ∀ {l pref : List α} {m : α} {suff : List α},
      l.filter p = pref ++ m :: suff →
      ∃ A B, l = A ++ m :: B ∧ A.filter p = pref := by
  intro l
  induction l with
  | nil =>
    intro pref m suff h
    simp only [List.filter_nil] at h
    exact absurd h.symm (List.append_ne_nil_of_right_ne_nil _ (by simp))
  | cons x t ih =>
    intro pref m suff h
    by_cases hp : p x
    · rw [List.filter_cons_of_pos hp] at h
      cases pref with
      | nil =>
        simp only [List.nil_append] at h
        have hx := (List.cons_eq_cons.mp h).1
        exact ⟨[], t, by simp [hx], by simp⟩
      | cons y pref2 =>
        simp only [List.cons_append] at h
        have h2 := List.cons_eq_cons.mp h
        obtain ⟨A, B, hAB, hfA⟩ := ih h2.2
        refine ⟨x :: A, B, by simp [hAB], ?_⟩
        rw [List.filter_cons_of_pos hp, hfA, h2.1]
    · rw [List.filter_cons_of_neg hp] at h
      obtain ⟨A, B, hAB, hfA⟩ := ih h
      exact ⟨x :: A, B, by simp [hAB], by rw [List.filter_cons_of_neg hp, hfA]⟩
end AnalyzeDocs

/-- C7: classify_document scores each label by counting its trigger keywords
    in the lowercased filename-plus-text; when no label scores above zero the
    fallback label with confidence Low is returned; otherwise the returned
    label carries a positive score s that is maximal, every label listed
    before it in DOCUMENT_TYPES scores strictly less (first-declared
    tie-breaking), and the confidence is High for s at least 3, Medium for s
    at least 2, else Low. -/
theorem classify_document_spec (filename text : String) :
    ((∀ q ∈ AnalyzeDocs.classifyScores filename text, q.2 = 0) →
      AnalyzeDocs.classify_document filename text =
        ("Unclassified Legal Document", "Low")) ∧
    (¬(∀ q ∈ AnalyzeDocs.classifyScores filename text, q.2 = 0) →
      ∃ A B s,
        AnalyzeDocs.classifyScores filename text =
          A ++ ((AnalyzeDocs.classify_document filename text).1, s) :: B ∧
        0 < s ∧
        (∀ q ∈ AnalyzeDocs.classifyScores filename text, q.2 ≤ s) ∧
        (∀ p ∈ A, p.2 < s) ∧
        (AnalyzeDocs.classify_document filename text).2 =
          (if 3 ≤ s then "High" else if 2 ≤ s then "Medium" else "Low")) := by
  constructor
  · intro h0
    have hf : (AnalyzeDocs.classifyScores filename text).filter
        (fun p => 0 < p.2) = [] := by
      rw [List.filter_eq_nil_iff]
      intro a ha
      simp [h0 a ha]
    unfold AnalyzeDocs.classify_document
    rw [hf]
  · intro hne
    obtain ⟨s0, rest, hfeq⟩ : ∃ s0 rest,
        (AnalyzeDocs.classifyScores filename text).filter (fun p => 0 < p.2) =
          s0 :: rest := by
      cases hf2 : (AnalyzeDocs.classifyScores filename text).filter
          (fun p => 0 < p.2) with
      | nil =>
        refine absurd (fun q hq => ?_) hne
        have := List.filter_eq_nil_iff.mp hf2 q hq
        simp only [decide_eq_true_eq] at this
        omega
      | cons a t => exact ⟨a, t, rfl⟩
    obtain ⟨pref, suff, hps, hlt, hle⟩ := AnalyzeDocs.takeMax_split s0 rest
    rw [← hfeq] at hps
    obtain ⟨A, B, hAB, hfA⟩ := AnalyzeDocs.filter_split hps
    have hmpos : 0 < (rest.foldl AnalyzeDocs.takeMax s0).2 := by
      have hm : (rest.foldl AnalyzeDocs.takeMax s0) ∈
          (AnalyzeDocs.classifyScores filename text).filter (fun p => 0 < p.2) := by
        rw [hps]
        exact List.mem_append.mpr (Or.inr (List.mem_cons_self _ _))
      have := (List.mem_filter.mp hm).2
      simpa using this
    have hcl : AnalyzeDocs.classify_document filename text =
        ((rest.foldl AnalyzeDocs.takeMax s0).1,
          if 3 ≤ (rest.foldl AnalyzeDocs.takeMax s0).2 then "High"
          else if 2 ≤ (rest.foldl AnalyzeDocs.takeMax s0).2 then "Medium"
          else "Low") := by
      unfold AnalyzeDocs.classify_document
      rw [hfeq]
    refine ⟨A, B, (rest.foldl AnalyzeDocs.takeMax s0).2, ?_, hmpos, ?_, ?_, ?_⟩
    · rw [hcl]
      exact hAB
    · intro q hq
      by_cases hq2 : 0 < q.2
      · have hmem : q ∈ (AnalyzeDocs.classifyScores filename text).filter
            (fun p => 0 < p.2) := List.mem_filter.mpr ⟨hq, by simpa using hq2⟩
        rw [hfeq] at hmem
        exact hle q hmem
      · omega
    · intro p hp
      by_cases hp2 : 0 < p.2
      · have hmem : p ∈ A.filter (fun p => 0 < p.2) :=
          List.mem_filter.mpr ⟨hp, by simpa using hp2⟩
        rw [hfA] at hmem
        exact hlt p hmem
      · omega
    · rw [hcl]

/-- C7 witness: the classifier applied to a concrete sale deed text, through
    the specification theorem (the winning score here is the Purchase & Sale
    label with three keyword hits). -/
theorem classify_document_spec_witness :
    ∃ A B s,
      AnalyzeDocs.classifyScores "Escritura de Compraventa" "venta de la finca" =
        A ++ ((AnalyzeDocs.classify_document "Escritura de Compraventa"
          "venta de la finca").1, s) :: B ∧
      0 < s ∧
      (∀ q ∈ AnalyzeDocs.classifyScores "Escritura de Compraventa"
        "venta de la finca", q.2 ≤ s) ∧
      (∀ p ∈ A, p.2 < s) ∧
      (AnalyzeDocs.classify_document "Escritura de Compraventa"
        "venta de la finca").2 =
        (if 3 ≤ s then "High" else if 2 ≤ s then "Medium" else "Low") :=
  (classify_document_spec "Escritura de Compraventa" "venta de la finca").2
    (by decide)
namespace AnalyzeDocs

lemma levelRank_levelOfScore (s : Nat) :
    levelRank (levelOfScore s) =
      if 5 ≤ s then 3 else if 3 ≤ s then 2 else if 2 ≤ s then 1 else 0 := by
  unfold levelRank levelOfScore
  split_ifs <;> simp_all

lemma levelOfScore_mono {s t : Nat} (h : s ≤ t) :
    levelRank (levelOfScore s) ≤ levelRank (levelOfScore t) := by
  rw [levelRank_levelOfScore, levelRank_levelOfScore]
  split_ifs <;> omega
end AnalyzeDocs

/-- C8: inserting a party that matches a key-family name anywhere into the
    parties list (all other inputs fixed) never decreases the relevance score
    of assess_legal_relevance and never lowers the resulting level. -/
theorem relevance_party_monotone (doc_type : String)
    (parties1 parties2 properties : List String) (text : String) (p : String)
    (hp : AnalyzeDocs.famMatch p = true) :
    AnalyzeDocs.relevance_score doc_type (parties1 ++ parties2) properties ≤
      AnalyzeDocs.relevance_score doc_type (parties1 ++ p :: parties2) properties ∧
    AnalyzeDocs.levelRank
        ((AnalyzeDocs.assess_legal_relevance doc_type (parties1 ++ parties2)
          properties text).1) ≤
      AnalyzeDocs.levelRank
        ((AnalyzeDocs.assess_legal_relevance doc_type (parties1 ++ p :: parties2)
          properties text).1) := by
  have hany : (parties1 ++ p :: parties2).any AnalyzeDocs.famMatch = true := by
    simp [List.any_append, hp]
  have hscore : AnalyzeDocs.relevance_score doc_type (parties1 ++ parties2)
      properties ≤
      AnalyzeDocs.relevance_score doc_type (parties1 ++ p :: parties2) properties := by
    unfold AnalyzeDocs.relevance_score
    rw [hany]
    have hb : (if (parties1 ++ parties2).any AnalyzeDocs.famMatch = true
          then 2 else 0) ≤ (if true = true then (2 : Nat) else 0) := by
      split <;> simp
    exact Nat.add_le_add (Nat.add_le_add_left hb _) (Nat.le_refl _)
  refine ⟨hscore, ?_⟩
  exact AnalyzeDocs.levelOfScore_mono hscore

/-- C8 witness: an Administrative Form with no parties scores 1 (level LOW);
    adding the key-family party Juan Ceresa raises it to 3 (level HIGH),
    through the monotonicity theorem. -/
theorem relevance_party_monotone_witness :
    AnalyzeDocs.relevance_score "Administrative Form" ([] ++ []) [] ≤
      AnalyzeDocs.relevance_score "Administrative Form" ([] ++ ["Juan Ceresa"]) [] ∧
    AnalyzeDocs.levelRank
        ((AnalyzeDocs.assess_legal_relevance "Administrative Form" ([] ++ [])
          [] "t").1) ≤
      AnalyzeDocs.levelRank
        ((AnalyzeDocs.assess_legal_relevance "Administrative Form"
          ([] ++ ["Juan Ceresa"]) [] "t").1) :=
  relevance_party_monotone "Administrative Form" [] [] [] "t" "Juan Ceresa"
    (by decide)

/-- C9: extract_parties returns at most ten entries for every input text,
    because the set of candidates is truncated to its first ten elements. -/
theorem extract_parties_at_most_ten (text : String) :
    (AnalyzeDocs.extract_parties text).length ≤ 10 := by
  unfold AnalyzeDocs.extract_parties
  simp only [List.length_map, List.length_take]
  exact Nat.min_le_left _ _

/-- C9 witness: the cap theorem applied at a concrete text. -/
theorem extract_parties_at_most_ten_witness :
    (AnalyzeDocs.extract_parties "Don Juan Ceresa y Rodriguez").length ≤ 10 :=
  extract_parties_at_most_ten "Don Juan Ceresa y Rodriguez"
namespace AnalyzeDocs

lemma incr_lookup : ∀ (acc : List (List Char × Nat)) (x k : List Char),
    (incr acc x).lookup k =
      if k = x then some (((acc.lookup x).getD 0) + 1) else acc.lookup k := by
  intro acc x
  induction acc with
  | nil =>
    intro k
    by_cases hkx : k = x
    · subst hkx; simp [incr, List.lookup]
    · simp [incr, List.lookup, hkx, beq_eq_false_iff_ne.mpr hkx]
  | cons a t ih =>
    obtain ⟨a1, a2⟩ := a
    intro k
    by_cases hax : a1 = x
    · subst hax
      have he : incr ((a1, a2) :: t) a1 = (a1, a2 + 1) :: t := by simp [incr]
      rw [he]
      by_cases hk : k = a1
      · subst hk; simp [List.lookup]
      · simp [List.lookup, hk, beq_eq_false_iff_ne.mpr hk]
    · have he : incr ((a1, a2) :: t) x = (a1, a2) :: incr t x := by
        simp [incr, hax]
      rw [he]
      by_cases hk1 : k = a1
      · subst hk1
        simp [List.lookup, hax, beq_eq_false_iff_ne.mpr hax]
      · simp [List.lookup, hk1, ih k, beq_eq_false_iff_ne.mpr hk1,
          beq_eq_false_iff_ne.mpr (Ne.symm hax)]

lemma foldl_incr_lookup : ∀ (t : List (List Char))
    (acc : List (List Char × Nat)) (k : List Char),
    (t.foldl incr acc).lookup k =
      match acc.lookup k with
      | some n => some (n + t.count k)
      | none => if k ∈ t then some (t.count k) else none := by
  intro t
  induction t with
  | nil =>
    intro acc k
    cases h : acc.lookup k <;> simp [h]
  | cons x ttl ih =>
    intro acc k
    rw [List.foldl_cons, ih (incr acc x) k, incr_lookup]
    by_cases hkx : k = x
    · subst hkx
      cases h : acc.lookup k <;>
        simp [h, List.count_cons, Option.some.injEq] <;> omega
    · cases h : acc.lookup k <;>
        simp [h, hkx, List.count_cons, Ne.symm hkx, List.mem_cons]

lemma incr_keys_sub : ∀ (acc : List (List Char × Nat)) (x : List Char)
    (k : List Char), k ∈ (incr acc x).map Prod.fst →
    k ∈ acc.map Prod.fst ∨ k = x := by
  intro acc x
  induction acc with
  | nil =>
    intro k hk
    simp [incr] at hk
    exact Or.inr hk
  | cons a t ih =>
    obtain ⟨a1, a2⟩ := a
    intro k hk
    by_cases hax : a1 = x
    · have he : incr ((a1, a2) :: t) x = (a1, a2 + 1) :: t := by
        simp [incr, hax]
      rw [he] at hk
      simp at hk
      rcases hk with rfl | hk
      · exact Or.inl (by simp)
      · exact Or.inl (by simp [hk])
    · have he : incr ((a1, a2) :: t) x = (a1, a2) :: incr t x := by
        simp [incr, hax]
      rw [he] at hk
      simp at hk
      rcases hk with rfl | hk
      · exact Or.inl (by simp)
      · rcases ih k (by simpa using hk) with h1 | h2
        · exact Or.inl (by simp; exact Or.inr (by simpa using h1))
        · exact Or.inr h2

lemma incr_keys_nodup : ∀ (acc : List (List Char × Nat)) (x : List Char),
    (acc.map Prod.fst).Nodup → ((incr acc x).map Prod.fst).Nodup := by
  intro acc x
  induction acc with
  | nil => intro _; simp [incr]
  | cons a t ih =>
    obtain ⟨a1, a2⟩ := a
    intro hnd
    simp only [List.map_cons, List.nodup_cons] at hnd
    by_cases hax : a1 = x
    · have he : incr ((a1, a2) :: t) x = (a1, a2 + 1) :: t := by
        simp [incr, hax]
      rw [he]
      simp only [List.map_cons, List.nodup_cons]
      exact hnd
    · have he : incr ((a1, a2) :: t) x = (a1, a2) :: incr t x := by
        simp [incr, hax]
      rw [he]
      simp only [List.map_cons, List.nodup_cons]
      refine ⟨?_, ih hnd.2⟩
      intro hmem
      rcases incr_keys_sub t x a1 hmem with h1 | h2
      · exact hnd.1 h1
      · exact hax h2

lemma foldl_incr_keys_nodup : ∀ (t : List (List Char))
    (acc : List (List Char × Nat)), (acc.map Prod.fst).Nodup →
    ((t.foldl incr acc).map Prod.fst).Nodup := by
  intro t
  induction t with
  | nil => intro acc h; exact h
  | cons x ttl ih =>
    intro acc h
    rw [List.foldl_cons]
    exact ih _ (incr_keys_nodup acc x h)

lemma countsInOrder_keys_nodup (l : List (List Char)) :
    ((countsInOrder l).map Prod.fst).Nodup :=
  foldl_incr_keys_nodup l [] (by simp)

lemma lookup_of_mem_nodup : ∀ (acc : List (List Char × Nat)),
    (acc.map Prod.fst).Nodup → ∀ p ∈ acc, acc.lookup p.1 = some p.2 := by
  intro acc
  induction acc with
  | nil => intro _ p hp; cases hp
  | cons a t ih =>
    obtain ⟨a1, a2⟩ := a
    intro hnd p hp
    simp only [List.map_cons, List.nodup_cons] at hnd
    rcases List.mem_cons.mp hp with rfl | hpt
    · simp [List.lookup]
    · have hne : p.1 ≠ a1 := by
        intro he
        exact hnd.1 (he ▸ List.mem_map_of_mem Prod.fst hpt)
      simp only [List.lookup, beq_eq_false_iff_ne.mpr hne]
      exact ih hnd.2 p hpt

lemma countsInOrder_lookup (l : List (List Char)) (k : List Char) :
    (countsInOrder l).lookup k =
      if k ∈ l then some (l.count k) else none := by
  have h := foldl_incr_lookup l [] k
  simpa [countsInOrder, List.lookup] using h

lemma mem_countsInOrder_count (l : List (List Char)) (p : List Char × Nat)
    (hp : p ∈ countsInOrder l) : p.2 = l.count p.1 := by
  have h1 := lookup_of_mem_nodup _ (countsInOrder_keys_nodup l) p hp
  rw [countsInOrder_lookup] at h1
  by_cases hm : p.1 ∈ l
  · rw [if_pos hm] at h1
    exact (Option.some.inj h1).symm
  · rw [if_neg hm] at h1
    exact absurd h1 (by simp)

lemma mem_of_lookup_eq_some : ∀ (acc : List (List Char × Nat))
    (k : List Char) (v : Nat), acc.lookup k = some v → (k, v) ∈ acc := by
  intro acc
  induction acc with
  | nil => intro k v h; simp [List.lookup] at h
  | cons a t ih =>
    obtain ⟨a1, a2⟩ := a
    intro k v h
    by_cases hk : k = a1
    · subst hk
      simp [List.lookup] at h
      simp [h]
    · simp only [List.lookup, beq_eq_false_iff_ne.mpr hk] at h
      exact List.mem_cons_of_mem _ (ih k v h)

lemma countsInOrder_mem_self {l : List (List Char)} {k : List Char}
    (hk : k ∈ l) : (k, l.count k) ∈ countsInOrder l := by
  apply mem_of_lookup_eq_some
  rw [countsInOrder_lookup, if_pos hk]

lemma foldl_orElse_isSome_acc {α β : Type} (f : β → Option α) :
    ∀ (l : List β) (acc : Option α), acc.isSome →
      (l.foldl (fun a p => a.orElse (fun _ => f p)) acc).isSome := by
  intro l
  induction l with
  | nil => intro acc h; exact h
  | cons p t ih =>
    intro acc h
    rw [List.foldl_cons]
    apply ih
    cases acc with
    | some v => simp [Option.orElse]
    | none => simp at h

lemma foldl_orElse_isSome {α β : Type} (f : β → Option α) :
    ∀ (l : List β) (acc : Option α) (p : β), p ∈ l → (f p).isSome →
      (l.foldl (fun a p => a.orElse (fun _ => f p)) acc).isSome := by
  intro l
  induction l with
  | nil => intro acc p hp; cases hp
  | cons q t ih =>
    intro acc p hp hf
    rw [List.foldl_cons]
    rcases List.mem_cons.mp hp with rfl | hp2
    · cases acc with
      | some v => exact foldl_orElse_isSome_acc f t _ (by simp [Option.orElse])
      | none =>
        exact foldl_orElse_isSome_acc f t _ (by simpa [Option.orElse] using hf)
    · exact ih _ p hp2 hf

lemma method1At_isSome {ws : List (List Char)} {pl : Nat} {phrase : List Char}
    (hc : 4 ≤ (windows ws pl).count phrase)
    (hne : (windows ws pl).indexOf phrase ≠ 0)
    (hq : ws.length / 4 < (windows ws pl).indexOf phrase) :
    (method1At ws pl).isSome := by
  have hmem : (phrase, (windows ws pl).count phrase) ∈
      countsInOrder (windows ws pl) :=
    countsInOrder_mem_self (List.count_pos_iff.mp (by omega))
  have hfind : ((countsInOrder (windows ws pl)).find? (fun pc2 =>
      decide (4 ≤ pc2.2) &&
      ((windows ws pl).indexOf pc2.1 != 0) &&
      decide (ws.length / 4 < (windows ws pl).indexOf pc2.1))).isSome :=
    List.find?_isSome.mpr ⟨(phrase, (windows ws pl).count phrase), hmem,
      by simp [hc, hne, hq]⟩
  unfold method1At
  obtain ⟨v, hv⟩ := Option.isSome_iff_exists.mp hfind
  simp [hv]

lemma foldl_orElse_cases {α β : Type} (f : β → Option α) :
    ∀ (l : List β) (acc : Option α) (out : α),
      l.foldl (fun a p => a.orElse (fun _ => f p)) acc = some out →
      acc = some out ∨ ∃ p ∈ l, f p = some out := by
  intro l
  induction l with
  | nil => intro acc out h; exact Or.inl h
  | cons p t ih =>
    intro acc out h
    rw [List.foldl_cons] at h
    rcases ih _ _ h with h2 | ⟨q, hq, hfq⟩
    · cases acc with
      | some v => exact Or.inl (by simpa [Option.orElse] using h2)
      | none => exact Or.inr ⟨p, by simp, by simpa [Option.orElse] using h2⟩
    · exact Or.inr ⟨q, by simp [hq], hfq⟩

lemma method1At_some {ws : List (List Char)} {pl fp pl' : Nat}
    (h : method1At ws pl = some (fp, pl')) :
    pl' = pl ∧ ∃ phrase,
      4 ≤ (windows ws pl).count phrase ∧
      (windows ws pl).indexOf phrase = fp ∧ fp ≠ 0 ∧ ws.length / 4 < fp := by
  unfold method1At at h
  obtain ⟨pc2, hfind, heq⟩ := Option.map_eq_some'.mp h
  have hpred := List.find?_some hfind
  have hmem := List.mem_of_find?_eq_some hfind
  simp only [Bool.and_eq_true, decide_eq_true_eq, bne_iff_ne, ne_eq] at hpred
  obtain ⟨⟨h4, hne⟩, hq⟩ := hpred
  have hfp : (windows ws pl).indexOf pc2.1 = fp := congrArg Prod.fst heq
  have hpl : pl = pl' := congrArg Prod.snd heq
  have hcount := mem_countsInOrder_count _ _ hmem
  rw [hcount] at h4
  exact ⟨hpl.symm, pc2.1, h4, hfp, fun h0 => hne (hfp ▸ h0), hfp ▸ hq⟩

lemma truncAt_suffix (truncated : List Char) : markerText <:+ truncAt truncated := by
  unfold truncAt
  rcases h : rfindSub truncated ". ".data with _ | i
  · exact List.suffix_append _ _
  · dsimp only
    split <;> exact List.suffix_append _ _

lemma buildTruncAux_suffix (result : List Char) :
    markerText <:+ buildTruncAux result := by
  unfold buildTruncAux
  rcases h : rfindSub result ". ".data with _ | i
  · exact List.suffix_append _ _
  · dsimp only
    split <;> exact List.suffix_append _ _

lemma method2At_suffix {pt : List Char} {pat : Rex.M} {out : List Char}
    (h : method2At pt pat = some out) : markerText <:+ out := by
  unfold method2At at h
  cases hs : Rex.searchStart pat pt with
  | none => rw [hs] at h; exact absurd h (by simp)
  | some sp =>
    rw [hs] at h
    dsimp only at h
    by_cases hq : pt.length / 4 < sp
    · rw [if_pos hq] at h
      injection h with h2
      rw [← h2]
      exact truncAt_suffix (pt.take sp)
    · rw [if_neg hq] at h
      exact absurd h (by simp)

lemma method2_suffix {pt out : List Char} (h : method2 pt = some out) :
    markerText <:+ out := by
  unfold method2 at h
  rcases foldl_orElse_cases (fun pat => method2At pt pat) _ _ _ h with
    h1 | ⟨pat, _, hp⟩
  · exact absurd h1 (by simp)
  · exact method2At_suffix hp
end AnalyzeDocs

/-- C10: clean_translation either returns its input unchanged, or returns a
    string ending with the truncation marker; every truncating branch appends
    the marker text, and the only marker-free return is the input itself. -/
theorem clean_translation_marker_or_id (text : String) :
    AnalyzeDocs.clean_translation text = text ∨
    AnalyzeDocs.markerText <:+ (AnalyzeDocs.clean_translation text).data := by
  unfold AnalyzeDocs.clean_translation
  by_cases h20 : (pySplit text.data).length < 20
  · rw [if_pos h20]
    exact Or.inl rfl
  · rw [if_neg h20]
    cases hm : AnalyzeDocs.method1 (pySplit text.data) with
    | some r =>
      exact Or.inr (AnalyzeDocs.buildTruncAux_suffix _)
    | none =>
      dsimp only
      cases h2 : AnalyzeDocs.method2 (joinSpace (pySplit text.data)) with
      | some out =>
        dsimp only
        exact Or.inr (AnalyzeDocs.method2_suffix h2)
      | none => exact Or.inl rfl

set_option maxRecDepth 1000000 in
set_option maxHeartbeats 4000000 in
/-- C4: on the 100-word caseA, whose six-word phrase of the land of the
    title recurs five times first at word 40 (past the first quarter),
    clean_translation truncates at the end of that first occurrence and
    appends the truncation marker; on caseB, identical except that the
    repetition starts at word 2, the output is the input unchanged; and in
    general method 1 fires only for a phrase recurring at least four times
    whose first-occurrence index is nonzero and past the first quarter of
    the word count, in which case the output is the truncation of the words
    through that first occurrence with the sentence-boundary trim. -/
theorem clean_translation_tail_repetition :
    (AnalyzeDocs.clean_translation AnalyzeDocs.caseA = AnalyzeDocs.caseAOut ∧
     AnalyzeDocs.clean_translation AnalyzeDocs.caseA ≠ AnalyzeDocs.caseA ∧
     AnalyzeDocs.markerText <:+
       (AnalyzeDocs.clean_translation AnalyzeDocs.caseA).data) ∧
    AnalyzeDocs.clean_translation AnalyzeDocs.caseB = AnalyzeDocs.caseB ∧
    (∀ ws fp pl, AnalyzeDocs.method1 ws = some (fp, pl) →
      ∃ phrase, 4 ≤ (AnalyzeDocs.windows ws pl).count phrase ∧
        (AnalyzeDocs.windows ws pl).indexOf phrase = fp ∧
        fp ≠ 0 ∧ ws.length / 4 < fp) ∧
    (∀ (t : String) fp pl, ¬(pySplit t.data).length < 20 →
      AnalyzeDocs.method1 (pySplit t.data) = some (fp, pl) →
      AnalyzeDocs.clean_translation t =
        ⟨AnalyzeDocs.buildTrunc1 (pySplit t.data) fp pl⟩) ∧
    (∀ ws pl phrase, pl ∈ ([6, 5, 4, 3] : List Nat) →
      4 ≤ (AnalyzeDocs.windows ws pl).count phrase →
      (AnalyzeDocs.windows ws pl).indexOf phrase ≠ 0 →
      ws.length / 4 < (AnalyzeDocs.windows ws pl).indexOf phrase →
      ∃ fp2 pl2, AnalyzeDocs.method1 ws = some (fp2, pl2)) := by
  have hA : AnalyzeDocs.clean_translation AnalyzeDocs.caseA =
      AnalyzeDocs.caseAOut := by decide
  have hB : AnalyzeDocs.clean_translation AnalyzeDocs.caseB =
      AnalyzeDocs.caseB := by decide
  refine ⟨⟨hA, ?_, ?_⟩, hB, ?_, ?_, ?_⟩
  · rw [hA]; decide
  · rw [hA]
    exact ⟨AnalyzeDocs.caseAPre.data, by decide⟩
  · intro ws fp pl h
    unfold AnalyzeDocs.method1 at h
    rcases AnalyzeDocs.foldl_orElse_cases (fun pl => AnalyzeDocs.method1At ws pl)
        _ _ _ h with h1 | ⟨pl2, _, hsome⟩
    · exact absurd h1 (by simp)
    · obtain ⟨hpl, phrase, hc, hidx, hne, hq⟩ := AnalyzeDocs.method1At_some hsome
      subst hpl
      exact ⟨phrase, hc, hidx, hne, hq⟩
  · intro t fp pl h20 hm
    unfold AnalyzeDocs.clean_translation
    rw [if_neg h20, hm]
  · intro ws pl phrase hpl hc hne hq
    have hsome := AnalyzeDocs.method1At_isSome hc hne hq
    have hres := AnalyzeDocs.foldl_orElse_isSome
      (fun pl => AnalyzeDocs.method1At ws pl) [6, 5, 4, 3] none pl hpl hsome
    obtain ⟨r, hr⟩ := Option.isSome_iff_exists.mp hres
    exact ⟨r.1, r.2, hr⟩

/-- C4 witness: method 1 fires on caseA at first occurrence 40 with phrase
    length 6, and the general statement instantiates there. -/
theorem clean_translation_tail_repetition_witness :
    ∃ phrase,
      4 ≤ (AnalyzeDocs.windows (pySplit AnalyzeDocs.caseA.data) 6).count phrase ∧
      (AnalyzeDocs.windows (pySplit AnalyzeDocs.caseA.data) 6).indexOf phrase = 40 ∧
      (40 : Nat) ≠ 0 ∧ (pySplit AnalyzeDocs.caseA.data).length / 4 < 40 :=
  clean_translation_tail_repetition.2.2.1 (pySplit AnalyzeDocs.caseA.data) 40 6
    (by decide)
namespace AnalyzeDocs

lemma rfindDotIn_bounds {t : List Char} {lo hi p : Nat}
    (h : rfindDotIn t lo hi = some p) : lo ≤ p ∧ p < lo + (hi - lo) := by
  unfold rfindDotIn at h
  have hmem := List.mem_of_mem_getLast? h
  exact List.mem_range'_1.mp (List.mem_filter.mp hmem).1

/-- With the default chunk size 1200 and the 200-character snap window, the
    snapped edge either reaches the text end or lies between 1001 and 1200
    characters past the cursor. -/
lemma chunkEnd_cases (t : List Char) (start : Nat) (h : start < t.length) :
    (chunkEnd t 1200 start = t.length ∧ t.length ≤ start + 1200) ∨
    (start + 1001 ≤ chunkEnd t 1200 start ∧ chunkEnd t 1200 start ≤ start + 1200 ∧
      chunkEnd t 1200 start < t.length) := by
  unfold chunkEnd
  by_cases h1 : min (start + 1200) t.length < t.length
  · right
    rw [if_pos h1]
    have he0 : min (start + 1200) t.length = start + 1200 := by omega
    rw [he0]
    cases hr : rfindDotIn t (start + 1200 - 200) (start + 1200) with
    | none => dsimp only; refine ⟨by omega, by omega, by omega⟩
    | some p =>
      obtain ⟨hp1, hp2⟩ := rfindDotIn_bounds hr
      have hsp : start < p := by omega
      dsimp only
      rw [if_pos hsp]
      refine ⟨by omega, by omega, by omega⟩
  · left
    rw [if_neg h1]
    constructor <;> omega

/-- C6 strict advance core: with the defaults, the cursor strictly advances
    from every position inside the text. -/
lemma chunkNext_gt (t : List Char) (start : Nat) (h : start < t.length) :
    start < chunkNext t 1200 100 start := by
  rcases chunkEnd_cases t start h with ⟨he, hn⟩ | ⟨hlo, hhi, hlt⟩
  · unfold chunkNext
    by_cases h0 : start = 0
    · rw [if_pos h0, he]; omega
    · rw [if_neg h0, he]
      simp only [lt_irrefl, if_false]
      omega
  · unfold chunkNext
    by_cases h0 : start = 0
    · rw [if_pos h0]; omega
    · rw [if_neg h0, if_pos hlt]; omega

lemma chunkLoop_isSome (t : List Char) : ∀ (fuel start : Nat),
    t.length - start < fuel → (chunkLoop t 1200 100 fuel start).isSome := by
  intro fuel
  induction fuel with
  | zero => intro start h; omega
  | succ fuel ih =>
    intro start h
    unfold chunkLoop
    by_cases hs : start < t.length
    · rw [if_pos hs]
      have hadv := chunkNext_gt t start hs
      obtain ⟨rest, hr⟩ := Option.isSome_iff_exists.mp
        (ih (chunkNext t 1200 100 start) (by omega))
      rw [hr]
      simp
    · rw [if_neg hs]; simp

lemma chunkLoop_cons {t : List Char} {cs ov : Nat} {fuel start : Nat}
    {b : Nat × Nat} {rest : List (Nat × Nat)}
    (h : chunkLoop t cs ov fuel start = some (b :: rest)) :
    start < t.length ∧ b = (start, chunkEnd t cs start) ∧
    chunkLoop t cs ov (fuel - 1) (chunkNext t cs ov start) = some rest := by
  cases fuel with
  | zero => simp [chunkLoop] at h
  | succ fuel =>
    unfold chunkLoop at h
    by_cases hs : start < t.length
    · rw [if_pos hs] at h
      cases hr : chunkLoop t cs ov fuel (chunkNext t cs ov start) with
      | none => rw [hr] at h; simp at h
      | some rest2 =>
        rw [hr] at h
        obtain ⟨hb, hrest⟩ := List.cons_eq_cons.mp (Option.some.inj h)
        refine ⟨hs, hb.symm, ?_⟩
        rw [Nat.succ_sub_one, hr, hrest]
    · rw [if_neg hs] at h
      simp at h

lemma chunkLoop_chain (t : List Char) : ∀ (fuel start : Nat)
    (bs : List (Nat × Nat)), chunkLoop t 1200 100 fuel start = some bs →
    start ≠ 0 → List.Chain' (fun x y => y.1 = x.2 - 100) bs := by
  intro fuel
  induction fuel with
  | zero => intro start bs h; simp [chunkLoop] at h
  | succ fuel ih =>
    intro start bs h h0
    cases bs with
    | nil => exact List.chain'_nil
    | cons b rest =>
      obtain ⟨hs, hb, hrest⟩ := chunkLoop_cons h
      rw [Nat.succ_sub_one] at hrest
      cases rest with
      | nil => simp
      | cons b2 rest2 =>
        obtain ⟨hs2, hb2, _⟩ := chunkLoop_cons hrest
        have hnext0 : chunkNext t 1200 100 start ≠ 0 := by
          have := chunkNext_gt t start hs; omega
        refine List.Chain'.cons ?_ (ih _ _ hrest hnext0)
        rw [hb, hb2]
        show chunkNext t 1200 100 start = chunkEnd t 1200 start - 100
        unfold chunkNext
        rw [if_neg h0]
        by_cases hce : chunkEnd t 1200 start < t.length
        · rw [if_pos hce]
        · exfalso
          have hne : chunkNext t 1200 100 start = chunkEnd t 1200 start := by
            unfold chunkNext; rw [if_neg h0, if_neg hce]
          omega
end AnalyzeDocs

set_option maxRecDepth 1000000 in
set_option maxHeartbeats 4000000 in
/-- C5 counterexample: on a 1300-character text of letters (no periods) with
    the default chunk size 1200 and overlap 100, the second chunk starts
    exactly at the first snapped boundary 1200, not 100 characters earlier
    as the claim states for every non-first chunk. -/
theorem chunk_overlap_counterexample :
    AnalyzeDocs.chunkBounds (List.replicate 1300 'a') 1200 100 1301 =
      some [(0, 1200), (1200, 1300)] ∧
    ¬((1200 : Nat) = 1200 - 100) := by
  refine ⟨by decide, by decide⟩

/-- C5 (amended): with the defaults, the first chunk starts at 0 and ends at
    the first snapped boundary, the second chunk starts exactly at that
    boundary (no overlap), and every chunk after the second starts 100
    characters before the previous snapped boundary. -/
theorem chunk_overlap_starts (t : List Char) (bs : List (Nat × Nat))
    (h : AnalyzeDocs.chunkBounds t 1200 100 (t.length + 1) = some bs) :
    ∀ b1 b2 rest, bs = b1 :: b2 :: rest →
      b1.1 = 0 ∧ b1.2 = AnalyzeDocs.chunkEnd t 1200 0 ∧ b2.1 = b1.2 ∧
      List.Chain' (fun x y => y.1 = x.2 - 100) (b2 :: rest) := by
  intro b1 b2 rest hbs
  subst hbs
  unfold AnalyzeDocs.chunkBounds at h
  obtain ⟨hs, hb1, hrest⟩ := AnalyzeDocs.chunkLoop_cons h
  obtain ⟨hs2, hb2, _⟩ := AnalyzeDocs.chunkLoop_cons hrest
  have hnext : AnalyzeDocs.chunkNext t 1200 100 0 = AnalyzeDocs.chunkEnd t 1200 0 := by
    unfold AnalyzeDocs.chunkNext
    rw [if_pos rfl]
  have hnext0 : AnalyzeDocs.chunkNext t 1200 100 0 ≠ 0 := by
    have := AnalyzeDocs.chunkNext_gt t 0 hs; omega
  refine ⟨by rw [hb1], by rw [hb1], ?_, ?_⟩
  · rw [hb1, hb2, hnext]
  · exact AnalyzeDocs.chunkLoop_chain t _ _ _ hrest hnext0

set_option maxRecDepth 1000000 in
set_option maxHeartbeats 4000000 in
/-- C5 witness: the amended statement instantiated on the 1300-character
    text, whose bounds are (0, 1200) and (1200, 1300). -/
theorem chunk_overlap_starts_witness :
    (0, 1200).1 = 0 ∧
    (0, 1200).2 = AnalyzeDocs.chunkEnd (List.replicate 1300 'a') 1200 0 ∧
    (1200, 1300).1 = (0, 1200).2 ∧
    List.Chain' (fun x y : Nat × Nat => y.1 = x.2 - 100) [(1200, 1300)] :=
  chunk_overlap_starts (List.replicate 1300 'a') [(0, 1200), (1200, 1300)]
    (by decide) (0, 1200) (1200, 1300) [] rfl

lemma chunkLoop_zero_cs_none : ∀ fuel : Nat,
    AnalyzeDocs.chunkLoop "aaa".data 0 100 fuel 0 = none := by
  intro fuel
  induction fuel with
  | zero => rfl
  | succ fuel ih =>
    unfold AnalyzeDocs.chunkLoop
    rw [if_pos (by decide : (0 : Nat) < "aaa".data.length)]
    have hnext : AnalyzeDocs.chunkNext "aaa".data 0 100 0 = 0 := by decide
    rw [hnext, ih]

/-- C6 counterexample: there is no input validation for chunk size zero: on
    the period-free text aaa with chunk_size 0 the cursor does not advance
    (the next start from 0 is again 0), and the loop never terminates (the
    bounds computation exhausts any fuel, exemplified at 1000). -/
theorem chunk_no_validation_counterexample :
    AnalyzeDocs.chunkNext "aaa".data 0 100 0 = 0 ∧
    AnalyzeDocs.chunkBounds "aaa".data 0 100 1000 = none := by
  refine ⟨by decide, chunkLoop_zero_cs_none 1000⟩

/-- C6 (amended): with the default chunk_size 1200 and overlap 100 every
    loop iteration strictly advances the cursor, and translate_in_chunks
    terminates (the loop completes within length-plus-one iterations) on
    every input text and backend. -/
theorem translate_in_chunks_terminates :
    (∀ (t : List Char) (start : Nat), start < t.length →
      start < AnalyzeDocs.chunkNext t 1200 100 start) ∧
    (∀ (f : String → String) (text : String),
      (AnalyzeDocs.translate_in_chunks f text 1200 100
        (text.data.length + 1)).isSome) := by
  refine ⟨AnalyzeDocs.chunkNext_gt, ?_⟩
  intro f text
  unfold AnalyzeDocs.translate_in_chunks
  by_cases hle : text.data.length ≤ 1200
  · rw [if_pos hle]; simp
  · rw [if_neg hle]
    obtain ⟨bs, hbs⟩ := Option.isSome_iff_exists.mp
      (AnalyzeDocs.chunkLoop_isSome text.data (text.data.length + 1) 0 (by omega))
    unfold AnalyzeDocs.chunkBounds
    rw [hbs]
    simp

/-- C6 witness: the advance and termination statements at a concrete text. -/
theorem translate_in_chunks_terminates_witness :
    (0 : Nat) < AnalyzeDocs.chunkNext "abc".data 1200 100 0 ∧
    (AnalyzeDocs.translate_in_chunks (fun s => s) "abc" 1200 100 4).isSome :=
  ⟨translate_in_chunks_terminates.1 "abc".data 0 (by decide),
   translate_in_chunks_terminates.2 (fun s => s) "abc"⟩
